import Mathlib

/-!
# tuidict: completion scan, region annotation, fingerprint, word cache, history

A shallow embedding of `tuidict.go`.

Go strings are byte sequences, so a string is a list of byte values.  The Go
standard-library calls the program makes (`strings.ToLower`, `strings.HasPrefix`,
`strings.Contains`, `strings.Replace`, `bufio.Scanner`, `strconv.Itoa`,
`ioutil.ReadDir`, `sort.Slice`) are modelled next to the program's functions.
The two places where the library consults Unicode tables (the non-ASCII path
of `strings.ToLower`, and the rune width used by `strings.ReplaceAll` for an
empty pattern) are fields of `GoLib`.  The general theorems hold for every
`GoLib`; the evaluations at a concrete input use ASCII strings and non-empty
patterns, where neither field is consulted.
-/

namespace Tuidict

/-- A Go `string`: a sequence of bytes. -/
abbrev Str := List Nat

/-- The bytes of an ASCII literal. -/
def ascii (s : String) : Str := s.toList.map Char.toNat

/-- Library behaviour that depends on Unicode tables. -/
structure GoLib where
  /-- `strings.Map(unicode.ToLower, s)`: the path `strings.ToLower` takes for a
  string holding a byte `>= 0x80`. -/
  mapLower : Str → Str
  /-- Width returned by `utf8.DecodeRuneInString` (only consulted on a non-empty string). -/
  runeWidth : Str → Nat

/-- A `GoLib` for ASCII inputs: the non-ASCII path of `ToLower` is never taken
there and every rune is one byte wide. -/
def asciiLib : GoLib := ⟨fun s => s, fun _ => 1⟩

/-! ## Go standard library -/

/-- The ASCII branch of `strings.ToLower`: `if 'A' <= c && c <= 'Z' { c += 'a' - 'A' }`. -/
def lowerByte (c : Nat) : Nat := if 65 ≤ c ∧ c ≤ 90 then c + 32 else c

/-- In `strings.ToLower`: no byte is `>= utf8.RuneSelf`. -/
def isASCII (s : Str) : Bool := s.all (fun c => decide (c < 128))

/-- Go `strings.ToLower`. -/
def ToLower (lib : GoLib) (s : Str) : Str :=
  if isASCII s then s.map lowerByte else lib.mapLower s

/-- Go `strings.HasPrefix(s, p)`: `len(s) >= len(p) && s[:len(p)] == p`. -/
def HasPrefix : Str → Str → Bool
  | _, [] => true
  | [], _ :: _ => false
  | a :: s, b :: p => a == b && HasPrefix s p

/-- Go `strings.Contains(s, sub)`: `sub` occurs at some offset of `s`. -/
def Contains : Str → Str → Bool
  | [], sub => HasPrefix [] sub
  | a :: s, sub => HasPrefix (a :: s) sub || Contains s sub

/-- Go `a < b` on strings: bytewise lexicographic, a proper prefix is smaller. -/
def strLess : Str → Str → Bool
  | _, [] => false
  | [], _ :: _ => true
  | a :: s, b :: t => decide (a < b) || (a == b && strLess s t)

/-- Decimal digits of `n`, most significant first, `fuel` bounding the digit count. -/
def digits : Nat → Nat → Str
  | 0, _ => []
  | fuel + 1, n => if n < 10 then [48 + n] else digits fuel (n / 10) ++ [48 + n % 10]

/-- Go `strconv.Itoa(n)` / `fmt.Sprintf("%d", n)` for a non-negative `n`. -/
def Itoa (n : Nat) : Str := digits (n + 1) n

/-- The `dropCR` helper of `bufio.ScanLines`: drop one trailing `\r`. -/
def dropCR (line : Str) : Str :=
  if line.getLast? = some 13 then line.dropLast else line

/-- The loop of `bufio.Scanner` with the default `ScanLines` split function: `cur`
is the part of the current line read so far. -/
def scanLinesFrom : Str → Str → List Str
  | [], cur => if cur = [] then [] else [dropCR cur]
  | c :: rest, cur =>
    if c = 10 then dropCR cur :: scanLinesFrom rest [] else scanLinesFrom rest (cur ++ [c])

/-- The tokens `for sc.Scan() { t := sc.Text() ... }` yields over `text`: the
lines, each without its `\n` and without one trailing `\r`; a last line without
`\n` is yielded when it is not empty.  (Lines are taken to be shorter than the
scanner's token limit `bufio.MaxScanTokenSize`.) -/
def scanLines (text : Str) : List Str := scanLinesFrom text []

/-- Go `strings.Replace(s, old, new, 1)`: the leftmost occurrence of `old` is
replaced (for an empty `old`, `new` is put in front). -/
def replaceFirst (old new : Str) : Str → Str
  | [] => if old = [] then new else []
  | a :: s =>
    if HasPrefix (a :: s) old then new ++ (a :: s).drop old.length
    else a :: replaceFirst old new s

/-- The copy loop of `strings.ReplaceAll` for a non-empty `old`: `skip` bytes of
an occurrence just replaced are still to be passed over. -/
def replaceAllFrom (old new : Str) : Nat → Str → Str
  | _, [] => []
  | skip + 1, _ :: s => replaceAllFrom old new skip s
  | 0, a :: s =>
    if HasPrefix (a :: s) old then new ++ replaceAllFrom old new (old.length - 1) s
    else a :: replaceAllFrom old new 0 s

/-- The copy loop of `strings.ReplaceAll` for an empty `old`: `new` is written
after every rune; `left` bytes of the current rune are still to be copied. -/
def afterRunes (lib : GoLib) (new : Str) : Nat → Str → Str
  | _, [] => []
  | left, a :: s =>
    if (if left = 0 then lib.runeWidth (a :: s) else left) ≤ 1 then
      a :: (new ++ afterRunes lib new 0 s)
    else a :: afterRunes lib new ((if left = 0 then lib.runeWidth (a :: s) else left) - 1) s

/-- Go `strings.ReplaceAll(s, old, new)`: every non-overlapping occurrence of
`old`, leftmost first, is replaced by `new`; for an empty `old`, `new` is put in
front of the string and after every rune. -/
def ReplaceAll (lib : GoLib) (s old new : Str) : Str :=
  if old = [] then new ++ afterRunes lib new 0 s else replaceAllFrom old new 0 s

/-! ## Autocompletion (`SetAutocompletion`) -/

/-- The variables `cur` and `end` captured by the autocomplete closure. -/
structure AutoState where
  cur : Str
  endFlag : Bool
deriving DecidableEq, Repr

/-- The `for n, word := range words` loop of the autocomplete closure, from loop
index `n` on, with the loop variables `i`, `j`, `flag` and `entries`. -/
def scanWords (lib : GoLib) (currentText : Str) :
    List Str → Int → Int → Int → Bool → List Str → List Str
  | [], _, _, _, _, entries => entries
  | word :: rest, n, i, j, flag, entries =>
    if i > 25 then entries
    else if HasPrefix (ToLower lib word) (ToLower lib currentText) then
      scanWords lib currentText rest (n + 1) (i + 1) n true (entries ++ [word])
    else if flag && decide (n - j > 2) then entries
    else scanWords lib currentText rest (n + 1) i j flag entries

/-- The entries the loop has collected when it ends (`i := 0; j := 0; flag := false`). -/
def collect (lib : GoLib) (words : List Str) (currentText : Str) : List Str :=
  scanWords lib currentText words 0 0 0 false []

/-- The closure passed to `inputField.SetAutocompleteFunc`: the returned
`entries` and the new values of `cur` and `end`. -/
def autocomplete (lib : GoLib) (words : List Str) (st : AutoState) (currentText : Str) :
    List Str × AutoState :=
  if currentText.length = 0 then ([], st)
  else if st.endFlag && HasPrefix (ToLower lib currentText) (ToLower lib st.cur) then ([], st)
  else if (collect lib words currentText).length ≤ 1 then
    ([], { cur := currentText, endFlag := true })
  else (collect lib words currentText, { cur := st.cur, endFlag := false })

/-- The bounded-scan heuristic as the specification words it: scan from the
beginning; once a match is found keep scanning; stop as soon as 3 consecutive
non-matching entries are met after at least one match has been seen.  `seen`
tells whether a match has been seen, `misses` counts the non-matching entries
since the last match. -/
def specScan (isMatch : Str → Bool) : List Str → Bool → Nat → List Str
  | [], _, _ => []
  | w :: ws, seen, misses =>
    if isMatch w then w :: specScan isMatch ws true 0
    else if !seen then specScan isMatch ws false 0
    else if 3 ≤ misses + 1 then []
    else specScan isMatch ws true (misses + 1)

/-! ## Text search (`SearchText`, `HighlightText`, `ShowSearchInput`) -/

/-- The globals the text functions read and write: `FoundDict`, the text shown
by `txt`, and the region id last passed to `txt.Highlight` (kept as the number
`strconv.Itoa` is applied to). -/
structure View where
  FoundDict : List Str
  txt : Str
  highlighted : Option Int
deriving DecidableEq, Repr

/-- `HighlightText(next, new)`: the view after `txt.Highlight(strconv.Itoa(next))`
and the returned `next + 1`. -/
def HighlightText (v : View) (next : Int) (new : Bool) : View × Int :=
  ({ FoundDict := v.FoundDict, txt := v.txt,
     highlighted := some (if new then (v.FoundDict.length : Int) else next + 1) },
   (if new then (v.FoundDict.length : Int) else next + 1) + 1)

/-- `fmt.Sprintf("[#FCE94F:#FF5FFF][\"%d\"]%s[\"\"][-:-]", i, s)`. -/
def searchTag (i : Nat) (s : Str) : Str :=
  ascii "[#FCE94F:#FF5FFF][\"" ++ Itoa i ++ ascii "\"]" ++ s ++ ascii "[\"\"][-:-]"

/-- The `for sc.Scan()` loop of `SearchText` over the remaining lines, with the
loop variables `i` and `res`; `s` is the lower-cased request. -/
def searchLoop (lib : GoLib) (s : Str) : List Str → Nat → Str → Str × Nat
  | [], i, res => (res, i)
  | t :: rest, i, res =>
    if Contains t s then
      searchLoop lib s rest (i + 1) (res ++ (ReplaceAll lib t s (searchTag i s) ++ [10]))
    else searchLoop lib s rest i (res ++ (t ++ [10]))

/-- The text `SearchText(text, req)` hands to `txt.SetText`, when `FoundDict`
holds `n` entries. -/
def searchResult (lib : GoLib) (n : Nat) (text req : Str) : Str :=
  (searchLoop lib (ToLower lib req) (scanLines text) n []).1

/-- `SearchText(text, req)`: the view after `txt.SetText(res)` and
`HighlightText(0, true)`, and the returned `n`. -/
def SearchText (lib : GoLib) (v : View) (text req : Str) : View × Int :=
  ((HighlightText { FoundDict := v.FoundDict,
                    txt := searchResult lib v.FoundDict.length text req,
                    highlighted := v.highlighted } 0 true).1,
   (v.FoundDict.length : Int))

/-- The keys the input capture of `ShowSearchInput` acts on: F3/Ctrl+N, and
Enter with the text `s` of the search field. -/
inductive SearchKey where
  | next : SearchKey
  | enter (s : Str) : SearchKey

/-- The variables of `ShowSearchInput`: the view, the captured `text` and `next`. -/
structure SearchSession where
  view : View
  text : Str
  next : Int

/-- `ShowSearchInput` when it opens: `var next int; text := txt.GetText(false)`. -/
def openSearch (v : View) : SearchSession := { view := v, text := v.txt, next := 0 }

/-- One key in the input capture of `ShowSearchInput`. -/
def searchKey (lib : GoLib) (st : SearchSession) : SearchKey → SearchSession
  | SearchKey.next =>
    { view := (HighlightText st.view st.next false).1, text := st.text,
      next := (HighlightText st.view st.next false).2 }
  | SearchKey.enter s =>
    if s.length > 0 then
      { view := (SearchText lib st.view st.text s).1, text := st.text,
        next := (SearchText lib st.view st.text s).2 }
    else st

/-- The region ids highlighted, in order, while the keys are handled one by one. -/
def highlightTrace (lib : GoLib) : SearchSession → List SearchKey → List (Option Int)
  | _, [] => []
  | st, k :: ks => (searchKey lib st k).view.highlighted :: highlightTrace lib (searchKey lib st k) ks

/-! ## Dictionary sections (`GetSdcv`, `ShowDropdown`) -/

/-- The marker `old := "-->"`. -/
def old : Str := ascii "-->"

/-- `fmt.Sprintf("[#06989A:][\"%d\"]%s[\"\"][-:-]", j, old)`. -/
def sectionTag (j : Nat) : Str :=
  ascii "[#06989A:][\"" ++ Itoa j ++ ascii "\"]" ++ old ++ ascii "[\"\"][-:-]"

/-- `Rep.Replace` for `Rep = strings.NewReplacer("[0;34m", "", "[0m", "")`: both
sequences are deleted, leftmost first; `skip` bytes of a sequence just met are
still to be passed over. -/
def RepReplace : Nat → Str → Str
  | _, [] => []
  | skip + 1, _ :: s => RepReplace skip s
  | 0, a :: s =>
    if HasPrefix (a :: s) (ascii "[0;34m") then RepReplace 5 s
    else if HasPrefix (a :: s) (ascii "[0m") then RepReplace 2 s
    else a :: RepReplace 0 s

/-- The `for scanner.Scan()` loop of `GetSdcv` over the remaining lines, with the
loop variables `i`, `j`, `res` and the global `FoundDict`. -/
def sdcvLoop : List Str → Nat → Nat → Str → List Str → Str × List Str
  | [], _, _, res, found => (res, found)
  | t :: rest, i, j, res, found =>
    if Contains t old && i % 2 == 0 then
      sdcvLoop rest (if Contains t old then i + 1 else i) (j + 1)
        (res ++ (replaceFirst old (sectionTag j) t ++ [10]))
        (found ++ [RepReplace 0 (t.drop 3)])
    else sdcvLoop rest (if Contains t old then i + 1 else i) j (res ++ (t ++ [10])) found

/-- `GetSdcv` on the output `out` of a successful `sdcv` run: the annotated text
`res` (which then goes through the display library to `txt.SetText`) and
`FoundDict`, which starts out empty. -/
def GetSdcv (out : Str) : Str × List Str := sdcvLoop (scanLines out) 0 0 [] []

/-- The region id the selected-handler of the dictionary dropdown highlights for
the current option `cur`: `if cur != -1 { txt.Highlight(strconv.Itoa(cur)) }`. -/
def dropdownHighlight (cur : Int) : Option Int := if cur != -1 then some cur else none

/-! ## Fingerprint (`CheckHash`) -/

/-- Go `strings.HasSuffix(s, suffix)`. -/
def HasSuffix (s suffix : Str) : Bool := HasPrefix s.reverse suffix.reverse

/-- Insertion of `x` into a list sorted by `less`, after the elements it is not
less than (the inner loop of Go's insertion sort keeps equal elements in order). -/
def insertSorted {α : Type} (less : α → α → Bool) (x : α) : List α → List α
  | [] => [x]
  | y :: ys => if less x y then x :: y :: ys else y :: insertSorted less x ys

/-- Go `sort.Slice(xs, less)` as the stable insertion sort the library runs on
slices of fewer than 12 elements.  On longer slices the library runs another
algorithm, whose result is again a permutation of the input in which no element
is `less` than an earlier one (`SortedBy`). -/
def sortSlice {α : Type} (less : α → α → Bool) (xs : List α) : List α :=
  xs.foldl (fun sorted x => insertSorted less x sorted) []

/-- What `sort.Slice(xs, less)` guarantees of its result `out`. -/
def SortedBy {α : Type} (less : α → α → Bool) (xs out : List α) : Prop :=
  out.Perm xs ∧ out.Pairwise (fun a b => less b a = false)

/-- `ioutil.ReadDir`: the names in the directory, sorted by file name
(`sort.Slice(list, func(i, j int) bool { return list[i].Name() < list[j].Name() })`);
`listing` is the order in which the file system yields them. -/
def ReadDir (listing : List Str) : List Str := sortSlice strLess listing

/-- The `for _, file := range files` loop of `CheckHash`: the MD5 digests of the
names ending in `.ifo` are appended to `hashCurrent`. -/
def hashLoop (md5 : Str → Str) : List Str → Str → Str
  | [], hashCurrent => hashCurrent
  | name :: files, hashCurrent =>
    if HasSuffix name (ascii ".ifo") then hashLoop md5 files (hashCurrent ++ md5 name)
    else hashLoop md5 files hashCurrent

/-- The fingerprint `hashCurrent` that `CheckHash` computes for a dictionary
directory: `files, err := ioutil.ReadDir(DictPath)` followed by the loop. -/
def hashCurrent (md5 : Str → Str) (listing : List Str) : Str :=
  hashLoop md5 (ReadDir listing) []

/-- `CheckHash`: the result and the content of the `dicts` file afterwards;
`stored` is the content of that file, `none` when it does not exist. -/
def CheckHash (md5 : Str → Str) (stored : Option Str) (listing : List Str) : Bool × Str :=
  match stored with
  | none => (true, hashCurrent md5 listing)
  | some hash => (decide (hash = hashCurrent md5 listing), hash)

/-! ## Word cache (`CacheWords`) -/

/-- The comparison `CacheWords` sorts with:
`strings.ToLower(srtWords[i]) < strings.ToLower(srtWords[j])`. -/
def lowerLess (lib : GoLib) (a b : Str) : Bool := strLess (ToLower lib a) (ToLower lib b)

/-- The bytes `for _, k2 := range srtWords { fmt.Fprintln(f, k2) }` writes. -/
def writeLines : List Str → Str
  | [] => []
  | k2 :: rest => k2 ++ [10] ++ writeLines rest

/-- `CacheWords` from the merged map `Words` on: `keys` is the order in which
`for k, _ := range Words` yields the (distinct) keys, the result is the content
written to the `words` file. -/
def CacheWords (lib : GoLib) (keys : List Str) : Str :=
  writeLines (sortSlice (lowerLess lib) keys)

/-! ## History (`FindWord`) -/

/-- The Go map `History`, as a list of entries with distinct keys. -/
abbrev HistoryMap := List (Str × Int)

/-- The assignment `History[text] = n`. -/
def mapSet (text : Str) (n : Int) : HistoryMap → HistoryMap
  | [] => [(text, n)]
  | (k, v) :: rest => if k = text then (k, n) :: rest else (k, v) :: mapSet text n rest

/-- The loop `for k, v := range History` of `FindWord`: an entry of rank 0 is
deleted, any other rank is decremented. -/
def shiftRanks : HistoryMap → HistoryMap
  | [] => []
  | (k, v) :: rest => if v == 0 then shiftRanks rest else (k, v - 1) :: shiftRanks rest

/-- The history update of `FindWord` for the text of the input field; `Input`
tells whether the input field is active. -/
def FindWord (HistorySize : Int) (Input : Bool) (History : HistoryMap) (text : Str) :
    HistoryMap :=
  if !Input then History
  else if (History.length : Int) ≥ HistorySize then
    shiftRanks (mapSet text (History.length : Int) History)
  else mapSet text (History.length : Int) History

/-- A sequence of look-ups, each made with the input field active. -/
def lookups (HistorySize : Int) : HistoryMap → List Str → HistoryMap
  | History, [] => History
  | History, text :: rest => lookups HistorySize (FindWord HistorySize true History text) rest

/-- The words `aa`, `ab`, ..., `az`. -/
def aWords : List Str := (List.range 26).map (fun k => [97, 97 + k])

/-- Successive calls of the autocomplete closure: the entries each call returns. -/
def autocompleteAll (lib : GoLib) (words : List Str) : AutoState → List Str → List (List Str)
  | _, [] => []
  | st, t :: ts =>
    (autocomplete lib words st t).1 :: autocompleteAll lib words (autocomplete lib words st t).2 ts

/-- The test of the loop: `strings.HasPrefix(strings.ToLower(word), strings.ToLower(currentText))`. -/
def isMatch (lib : GoLib) (currentText word : Str) : Bool :=
  HasPrefix (ToLower lib word) (ToLower lib currentText)

/-! ## Reading the annotated texts line by line -/

/-- The test `y := strings.Contains(t, old)` of `GetSdcv`. -/
def isMarker (t : Str) : Bool := Contains t old

/-- The number of marker lines among the first `k` lines. -/
def marksBefore (lines : List Str) (k : Nat) : Nat :=
  ((lines.take k).filter isMarker).length

/-- Line `k` holds the marker and an even number of marker lines stand before
it: it is the 1st, 3rd, 5th, ... marker line. -/
def opensSection (lines : List Str) (k : Nat) : Bool :=
  isMarker (lines.getD k []) && marksBefore lines k % 2 == 0

/-- The label of a line that opens a section: the number of such lines before it. -/
def sectionLabel (lines : List Str) (k : Nat) : Nat := marksBefore lines k / 2

/-- What stands for line `k` in the annotated text: a line that opens a section
has its first marker wrapped in the region tag of its label, any other line is
copied; a newline follows. -/
def sectionLine (lines : List Str) (k : Nat) : Str :=
  if opensSection lines k then
    replaceFirst old (sectionTag (sectionLabel lines k)) (lines.getD k []) ++ [10]
  else lines.getD k [] ++ [10]

/-- The name entered into `FoundDict` for line `k`. -/
def sectionName (lines : List Str) (k : Nat) : Str := RepReplace 0 ((lines.getD k []).drop 3)

/-- The lower-case form of line `k` contains `s`. -/
def isHit (lib : GoLib) (s : Str) (lines : List Str) (k : Nat) : Bool :=
  Contains (ToLower lib (lines.getD k [])) s

/-- The number of lines whose lower-case form contains `s` among the first `k` lines. -/
def hitsBefore (lib : GoLib) (s : Str) (lines : List Str) (k : Nat) : Nat :=
  ((lines.take k).filter (fun t => Contains (ToLower lib t) s)).length

/-- What stands for line `k` in the text of a search that starts its labels at
`n`: in a line whose lower-case form contains `s` every occurrence of `s` is
replaced by the region tag whose label is `n` plus the number of such lines
before it, any other line is copied; a newline follows. -/
def searchLine (lib : GoLib) (s : Str) (n : Nat) (lines : List Str) (k : Nat) : Str :=
  if isHit lib s lines k then
    ReplaceAll lib (lines.getD k []) s (searchTag (n + hitsBefore lib s lines k) s) ++ [10]
  else lines.getD k [] ++ [10]

/-- The text `GetSdcv` produces for the output `-->d1`, `-->w`, `d d`, `-->d2`,
`-->w`: two dictionary regions, 0 and 1, each with the tag `[#06989A:]`. -/
def twoSections : Str :=
  ascii ("[#06989A:][\"0\"]-->[\"\"][-:-]d1\n-->w\nd d\n"
    ++ "[#06989A:][\"1\"]-->[\"\"][-:-]d2\n-->w\n")

/-! ## String order and prefixes -/

theorem HasPrefix_trans : ∀ (w t c : Str), HasPrefix w t = true → HasPrefix t c = true →
    HasPrefix w c = true
  | _, _, [], _, _ => by simp [HasPrefix]
  | _, [], _ :: _, _, h => by simp [HasPrefix] at h
  | [], _ :: _, _ :: _, h, _ => by simp [HasPrefix] at h
  | a :: w, b :: t, d :: c, h1, h2 => by
    simp only [HasPrefix, Bool.and_eq_true, beq_iff_eq] at h1 h2 ⊢
    exact ⟨h1.1.trans h2.1, HasPrefix_trans w t c h1.2 h2.2⟩

/-- The strings with a given prefix form an interval of the byte order. -/
theorem HasPrefix_between : ∀ (p a b c : Str), strLess b a = false → strLess c b = false →
    HasPrefix a p = true → HasPrefix c p = true → HasPrefix b p = true
  | [], _, _, _, _, _, _, _ => by simp [HasPrefix]
  | _ :: _, [], _, _, _, _, h, _ => by simp [HasPrefix] at h
  | _ :: _, _ :: _, _, [], _, _, _, h => by simp [HasPrefix] at h
  | _ :: _, _ :: _, [], _ :: _, h, _, _, _ => by simp [strLess] at h
  | x :: p, a :: s, b :: t, c :: u, h1, h2, h3, h4 => by
    simp only [HasPrefix, Bool.and_eq_true, beq_iff_eq] at h3 h4 ⊢
    simp only [strLess, Bool.or_eq_false_iff, decide_eq_false_iff_not, Bool.and_eq_false_imp,
      beq_iff_eq, not_lt] at h1 h2
    obtain ⟨e1, h3⟩ := h3
    obtain ⟨e2, h4⟩ := h4
    have hb : b = x := by omega
    have hba : b = a := by omega
    have hcb : c = b := by omega
    exact ⟨hb, HasPrefix_between p s t u (h1.2 hba) (h2.2 hcb) h3 h4⟩

theorem strLess_asymm : ∀ (a b : Str), strLess a b = true → strLess b a = false
  | _, [], h => by simp [strLess] at h
  | [], _ :: _, _ => by simp [strLess]
  | a :: s, b :: t, h => by
    simp only [strLess, Bool.or_eq_true, decide_eq_true_eq, Bool.and_eq_true, beq_iff_eq] at h
    simp only [strLess, Bool.or_eq_false_iff, decide_eq_false_iff_not, Bool.and_eq_false_imp,
      beq_iff_eq, not_lt]
    rcases h with h | ⟨rfl, h⟩
    · exact ⟨le_of_lt h, fun e => absurd h (by omega)⟩
    · exact ⟨le_refl _, fun _ => strLess_asymm s t h⟩

theorem strLess_antisymm : ∀ (a b : Str), strLess a b = false → strLess b a = false → a = b
  | [], [], _, _ => rfl
  | [], _ :: _, h, _ => by simp [strLess] at h
  | _ :: _, [], _, h => by simp [strLess] at h
  | a :: s, b :: t, h1, h2 => by
    simp only [strLess, Bool.or_eq_false_iff, decide_eq_false_iff_not, Bool.and_eq_false_imp,
      beq_iff_eq, not_lt] at h1 h2
    have hb : a = b := le_antisymm h2.1 h1.1
    subst hb
    rw [strLess_antisymm s t (h1.2 rfl) (h2.2 rfl)]

/-- The order `a <= b` (that is, not `b < a`) is transitive. -/
theorem strLess_trans_not : ∀ (a b c : Str), strLess b a = false → strLess c b = false →
    strLess c a = false
  | [], _, _, _, _ => by simp [strLess]
  | _ :: _, [], _, h, _ => by simp [strLess] at h
  | _ :: _, _ :: _, [], _, h => by simp [strLess] at h
  | a :: s, b :: t, c :: u, h1, h2 => by
    simp only [strLess, Bool.or_eq_false_iff, decide_eq_false_iff_not, Bool.and_eq_false_imp,
      beq_iff_eq, not_lt] at h1 h2 ⊢
    refine ⟨le_trans h1.1 h2.1, fun e => ?_⟩
    subst e
    have hb : b = c := le_antisymm h2.1 h1.1
    subst hb
    exact strLess_trans_not s t u (h1.2 rfl) (h2.2 rfl)

/-! ## The completion scan -/

theorem specScan_no_match (m : Str → Bool) : ∀ (ws : List Str) (seen : Bool) (k : Nat),
    (∀ w ∈ ws, m w = false) → specScan m ws seen k = []
  | [], _, _, _ => rfl
  | w :: ws, seen, k, h => by
    have hw : m w = false := h w (List.mem_cons_self _ _)
    have ht : ∀ x ∈ ws, m x = false := fun x hx => h x (List.mem_cons_of_mem _ hx)
    simp only [specScan, hw, Bool.false_eq_true, if_false]
    split
    · exact specScan_no_match m ws _ _ ht
    · split
      · rfl
      · exact specScan_no_match m ws _ _ ht

theorem specScan_sublist_filter (m : Str → Bool) : ∀ (ws : List Str) (seen : Bool) (k : Nat),
    (specScan m ws seen k).Sublist (ws.filter m)
  | [], _, _ => by simp [specScan]
  | w :: ws, seen, k => by
    by_cases hw : m w = true
    · simp only [specScan, hw, if_true, List.filter_cons_of_pos]
      exact (specScan_sublist_filter m ws _ _).cons₂ _
    · simp only [specScan, hw, Bool.false_eq_true, if_false, List.filter_cons_of_neg,
        not_false_eq_true]
      split
      · exact specScan_sublist_filter m ws _ _
      · split
        · exact List.nil_sublist _
        · exact specScan_sublist_filter m ws _ _

/-- The loop of the closure collects what the worded heuristic collects, up to
the point where `i > 25` ends it. -/
theorem scanWords_eq_take (lib : GoLib) (p : Str) :
    ∀ (ws : List Str) (n : Int) (i : Nat) (j : Int) (flag : Bool) (entries : List Str)
      (misses : Nat), i ≤ 26 → (flag = true → n - j - 1 = (misses : Int)) →
      scanWords lib p ws n (i : Int) j flag entries
        = entries ++ (specScan (isMatch lib p) ws flag misses).take (26 - i)
  | [], _, _, _, _, _, _, _, _ => by simp [scanWords, specScan]
  | w :: ws, n, i, j, flag, entries, misses, hi, hinv => by
    unfold scanWords
    by_cases h26 : (i : Int) > 25
    · have : 26 - i = 0 := by omega
      simp [h26, this]
    · have hi' : i + 1 ≤ 26 := by omega
      rw [if_neg h26]
      by_cases hw : isMatch lib p w = true
      · have hw' : HasPrefix (ToLower lib w) (ToLower lib p) = true := hw
        rw [if_pos hw']
        have ih := scanWords_eq_take lib p ws (n + 1) (i + 1) n true (entries ++ [w]) 0 hi'
          (fun _ => by simp)
        have hc : ((i + 1 : Nat) : Int) = (i : Int) + 1 := by push_cast; rfl
        rw [hc] at ih
        rw [ih]
        have h2 : 26 - i = (26 - (i + 1)) + 1 := by omega
        simp only [specScan, hw, if_true]
        rw [h2, List.take_succ_cons]
        simp
      · have hw' : ¬ HasPrefix (ToLower lib w) (ToLower lib p) = true := hw
        rw [if_neg hw']
        cases flag with
        | false =>
          simp only [Bool.false_and, Bool.false_eq_true, if_false, specScan, hw, Bool.not_false,
            if_true]
          exact scanWords_eq_take lib p ws (n + 1) i j false entries 0 hi (fun h => by simp at h)
        | true =>
          have hm := hinv rfl
          simp only [Bool.true_and, decide_eq_true_eq, specScan, hw, Bool.false_eq_true,
            if_false, Bool.not_true]
          by_cases hgt : n - j > 2
          · have h3 : 3 ≤ misses + 1 := by omega
            simp [hgt, h3]
          · have h3 : ¬ 3 ≤ misses + 1 := by omega
            rw [if_neg hgt, if_neg h3]
            exact scanWords_eq_take lib p ws (n + 1) i j true entries (misses + 1) hi
              (fun _ => by push_cast; omega)

theorem collect_eq_take (lib : GoLib) (words : List Str) (p : Str) :
    collect lib words p = (specScan (isMatch lib p) words false 0).take 26 := by
  have h := scanWords_eq_take lib p words 0 0 0 false [] 0 (by omega) (fun h => by simp at h)
  simpa [collect] using h

theorem specScan_sorted_seen (lib : GoLib) (p u : Str) (hu : isMatch lib p u = true) :
    ∀ (ws : List Str) (k : Nat), (∀ x ∈ ws, lowerLess lib x u = false) →
      ws.Pairwise (fun a b => lowerLess lib b a = false) →
      specScan (isMatch lib p) ws true k = ws.filter (isMatch lib p)
  | [], _, _, _ => by simp [specScan]
  | w :: ws, k, hle, hs => by
    have hs' := List.pairwise_cons.mp hs
    have hle' : ∀ x ∈ ws, lowerLess lib x u = false :=
      fun x hx => hle x (List.mem_cons_of_mem _ hx)
    by_cases hw : isMatch lib p w = true
    · simp only [specScan, hw, if_true, List.filter_cons_of_pos]
      rw [specScan_sorted_seen lib p u hu ws 0 hle' hs'.2]
    · have hnone : ∀ x ∈ ws, isMatch lib p x = false := by
        intro x hx
        by_contra hx'
        have hx'' : isMatch lib p x = true := by simpa using hx'
        exact hw (HasPrefix_between (ToLower lib p) (ToLower lib u) (ToLower lib w) (ToLower lib x)
          (hle w (List.mem_cons_self _ _)) (hs'.1 x hx) hu hx'')
      have hall : ∀ x ∈ w :: ws, isMatch lib p x = false := by
        intro x hx
        rcases List.mem_cons.mp hx with rfl | hx
        · simpa using hw
        · exact hnone x hx
      rw [specScan_no_match _ _ _ _ hall]
      symm
      rw [List.filter_eq_nil_iff]
      intro x hx
      simp [hall x hx]

/-- On an index sorted by lower-case form the worded heuristic collects every match. -/
theorem specScan_sorted (lib : GoLib) (p : Str) :
    ∀ (ws : List Str), ws.Pairwise (fun a b => lowerLess lib b a = false) →
      specScan (isMatch lib p) ws false 0 = ws.filter (isMatch lib p)
  | [], _ => by simp [specScan]
  | w :: ws, hs => by
    have hs' := List.pairwise_cons.mp hs
    by_cases hw : isMatch lib p w = true
    · simp only [specScan, hw, if_true, List.filter_cons_of_pos]
      rw [specScan_sorted_seen lib p w hw ws 0 hs'.1 hs'.2]
    · simp only [specScan, hw, Bool.false_eq_true, if_false, Bool.not_false, if_true,
        List.filter_cons_of_neg, not_false_eq_true]
      exact specScan_sorted lib p ws hs'.2

theorem specScan_gap (m : Str → Bool) (rest : List Str) : ∀ (gap : List Str) (k : Nat),
    (∀ g ∈ gap, m g = false) → k + gap.length ≤ 2 →
      specScan m (gap ++ rest) true k = specScan m rest true (k + gap.length)
  | [], _, _, _ => by simp
  | g :: gap, k, hg, hk => by
    have hg0 : m g = false := hg g (List.mem_cons_self _ _)
    have hk' : ¬ 3 ≤ k + 1 := by simp only [List.length_cons] at hk; omega
    simp only [List.cons_append, specScan, hg0, Bool.false_eq_true, if_false, Bool.not_true,
      hk']
    change specScan m (gap ++ rest) true (k + 1) = _
    rw [specScan_gap m rest gap (k + 1) (fun x hx => hg x (List.mem_cons_of_mem _ hx))
      (by simp only [List.length_cons] at hk; omega)]
    simp only [List.length_cons]
    congr 1
    omega

theorem specScan_stop (m : Str → Bool) (rest : List Str) : ∀ (gap : List Str) (k : Nat),
    (∀ g ∈ gap, m g = false) → k ≤ 2 → 3 ≤ k + gap.length →
      specScan m (gap ++ rest) true k = []
  | [], _, _, h2, h3 => by simp at h3; omega
  | g :: gap, k, hg, h2, h3 => by
    have hg0 : m g = false := hg g (List.mem_cons_self _ _)
    simp only [List.cons_append, specScan, hg0, Bool.false_eq_true, if_false, Bool.not_true]
    by_cases hk : 3 ≤ k + 1
    · rw [if_pos hk]
    · rw [if_neg hk]
      change specScan m (gap ++ rest) true (k + 1) = _
      exact specScan_stop m rest gap (k + 1) (fun x hx => hg x (List.mem_cons_of_mem _ hx))
        (by omega) (by simp only [List.length_cons] at h3; omega)

/-- The loop at a matching word, under the cap: the word is appended and the
loop goes on from the next index. -/
theorem scanWords_at_match (lib : GoLib) (p u : Str) (ws : List Str) (n : Int) (i : Nat)
    (j : Int) (flag : Bool) (entries : List Str) (hi : i < 25) (hu : isMatch lib p u = true) :
    scanWords lib p (u :: ws) n (i : Int) j flag entries
      = entries ++ u :: (specScan (isMatch lib p) ws true 0).take (25 - i) := by
  have h := scanWords_eq_take lib p (u :: ws) n i j flag entries
    (if flag then (n - j - 1).toNat else 0) (by omega)
  have h25 : 26 - i = (25 - i) + 1 := by omega
  by_cases hf : flag = true
  · subst hf
    unfold scanWords
    have hu' : HasPrefix (ToLower lib u) (ToLower lib p) = true := hu
    have hle : ¬ ((i : Int) > 25) := by omega
    rw [if_neg hle, if_pos hu']
    have h2 := scanWords_eq_take lib p ws (n + 1) (i + 1) n true (entries ++ [u]) 0
      (by omega) (fun _ => by simp)
    have hc : ((i + 1 : Nat) : Int) = (i : Int) + 1 := by push_cast; rfl
    rw [hc] at h2
    rw [h2]
    have : 26 - (i + 1) = 25 - i := by omega
    simp [this]
  · have hf' : flag = false := by simpa using hf
    subst hf'
    rw [h (fun e => by simp at e)]
    simp only [specScan, hu, if_true, h25, List.take_succ_cons]

/-- The entries collected when the loop ends: at most 26. -/
theorem collect_length_le (lib : GoLib) (words : List Str) (p : Str) :
    (collect lib words p).length ≤ 26 := by
  rw [collect_eq_take]
  exact List.length_take_le _ _

/-- The autocomplete closure returns at most 26 entries, whatever the index,
the state and the text. -/
theorem autocomplete_length_le (lib : GoLib) (words : List Str) (st : AutoState) (p : Str) :
    (autocomplete lib words st p).1.length ≤ 26 := by
  unfold autocomplete
  split
  · simp
  · split
    · simp
    · split
      · simp
      · exact collect_length_le lib words p

theorem collect_sorted (lib : GoLib) (words : List Str) (p : Str)
    (hs : words.Pairwise (fun a b => lowerLess lib b a = false)) :
    collect lib words p = (words.filter (isMatch lib p)).take 26 := by
  rw [collect_eq_take, specScan_sorted lib p words hs]

theorem collect_length_le_filter (lib : GoLib) (words : List Str) (p : Str) :
    (collect lib words p).length ≤ (words.filter (isMatch lib p)).length := by
  rw [collect_eq_take]
  exact le_trans (List.length_take_le' _ _) (specScan_sublist_filter _ _ _ _).length_le

theorem collect_sublist (lib : GoLib) (words : List Str) (p : Str) :
    (collect lib words p).Sublist words := by
  rw [collect_eq_take]
  exact ((List.take_sublist _ _).trans (specScan_sublist_filter _ _ _ _)).trans
    (List.filter_sublist _)

theorem filter_isMatch_length_le (lib : GoLib) (words : List Str) (c t : Str)
    (ht : HasPrefix (ToLower lib t) (ToLower lib c) = true) :
    (words.filter (isMatch lib t)).length ≤ (words.filter (isMatch lib c)).length := by
  have h : words.filter (isMatch lib t) = (words.filter (isMatch lib c)).filter (isMatch lib t) := by
    rw [List.filter_filter]
    apply List.filter_congr
    intro w _
    by_cases hw : isMatch lib t w = true
    · have hc : isMatch lib c w = true := HasPrefix_trans _ _ _ hw ht
      simp [hw, hc]
    · have hw' : isMatch lib t w = false := by simpa using hw
      simp [hw']
  rw [h]
  exact (List.filter_sublist _).length_le

/-! ## Claims on the autocompletion -/

/-- C1, the code at the failing input: for the index `aa`, `ab`, ..., `az` and
the text `a` the autocomplete function returns all 26 words, one more than the
25 the claim allows. -/
theorem autocomplete_returns_26_entries :
    (autocomplete asciiLib aWords { cur := [], endFlag := false } (ascii "a")).1 = aWords ∧
    aWords.length = 26 := by
  decide

/-- C2 as stated fails: in the index `a`, `aa`, `ab`, ..., `az` (27 words that all
start with `a`) the word `az` matches the text `a` and directly follows the
collected match `ay`, yet the scan has ended before it and `az` is not returned. -/
theorem scan_ends_at_cap :
    isMatch asciiLib (ascii "a") (ascii "az") = true ∧
    ascii "a" :: aWords = (ascii "a" :: aWords.take 24) ++ [ascii "ay", ascii "az"] ∧
    ascii "ay" ∈ (autocomplete asciiLib (ascii "a" :: aWords)
      { cur := [], endFlag := false } (ascii "a")).1 ∧
    ascii "az" ∉ (autocomplete asciiLib (ascii "a" :: aWords)
      { cur := [], endFlag := false } (ascii "a")).1 := by
  decide

/-- C2 (amended): while fewer than 25 words have been collected, the scan of the
autocomplete function is the worded heuristic.  (1) When the heuristic `specScan`
(scan from the start, collect each match, stop at the third consecutive
non-matching entry after a match) collects at most 25 words, the loop collects
exactly those.  (2) Wherever the loop meets a match `u` with fewer than 24 words
collected, a match `w` that follows `u` after at most two non-matching entries
is collected right after `u`.  (3) Wherever the loop meets a match `u` with
fewer than 25 words collected and three or more non-matching entries follow,
nothing after `u` is collected.  (4) With a non-empty text and suppression
inactive, more than one collected word means the collected words are returned,
and (5) they stand in index order.  (6) For the index `cat`, `car`, `care`, `dog`
and the text `ca` the result is `cat`, `car`, `care`. -/
theorem bounded_scan_heuristic (lib : GoLib) (words : List Str) (p : Str) :
    ((specScan (isMatch lib p) words false 0).length ≤ 25 →
      collect lib words p = specScan (isMatch lib p) words false 0) ∧
    (∀ (u w : Str) (gap rest : List Str) (n j : Int) (i : Nat) (flag : Bool)
        (entries : List Str),
      i < 24 → isMatch lib p u = true → isMatch lib p w = true →
      (∀ g ∈ gap, isMatch lib p g = false) → gap.length ≤ 2 →
      ∃ more, scanWords lib p (u :: (gap ++ w :: rest)) n (i : Int) j flag entries
        = entries ++ u :: w :: more) ∧
    (∀ (u : Str) (gap rest : List Str) (n j : Int) (i : Nat) (flag : Bool)
        (entries : List Str),
      i < 25 → isMatch lib p u = true →
      (∀ g ∈ gap, isMatch lib p g = false) → 3 ≤ gap.length →
      scanWords lib p (u :: (gap ++ rest)) n (i : Int) j flag entries = entries ++ [u]) ∧
    (∀ st : AutoState, p.length ≠ 0 →
      (st.endFlag && HasPrefix (ToLower lib p) (ToLower lib st.cur)) = false →
      1 < (collect lib words p).length →
      (autocomplete lib words st p).1 = collect lib words p) ∧
    (collect lib words p).Sublist words ∧
    (autocomplete lib [ascii "cat", ascii "car", ascii "care", ascii "dog"]
        { cur := [], endFlag := false } (ascii "ca")).1
      = [ascii "cat", ascii "car", ascii "care"] := by
  refine ⟨?_, ?_, ?_, ?_, collect_sublist lib words p, rfl⟩
  · intro h
    rw [collect_eq_take, List.take_of_length_le (by omega)]
  · intro u w gap rest n j i flag entries hi hu hw hg hlen
    refine ⟨(specScan (isMatch lib p) rest true 0).take (24 - i), ?_⟩
    rw [scanWords_at_match lib p u _ n i j flag entries (by omega) hu,
      specScan_gap _ _ gap 0 hg (by omega)]
    have h25 : 25 - i = (24 - i) + 1 := by omega
    simp only [specScan, hw, if_true, h25, List.take_succ_cons]
  · intro u gap rest n j i flag entries hi hu hg hlen
    rw [scanWords_at_match lib p u _ n i j flag entries hi hu,
      specScan_stop _ _ gap 0 hg (by omega) (by omega)]
    simp
  · intro st hp hs h1
    unfold autocomplete
    rw [if_neg hp, hs]
    simp only [Bool.false_eq_true, if_false]
    rw [if_neg (by omega)]

/-- C2 (amended), at the index `cat`, `car`, `care`, `dog` and the text `ca`. -/
theorem bounded_scan_heuristic_witness :
    (specScan (isMatch asciiLib (ascii "ca"))
      [ascii "cat", ascii "car", ascii "care", ascii "dog"] false 0).length ≤ 25 ∧
    collect asciiLib [ascii "cat", ascii "car", ascii "care", ascii "dog"] (ascii "ca")
      = specScan (isMatch asciiLib (ascii "ca"))
          [ascii "cat", ascii "car", ascii "care", ascii "dog"] false 0 :=
  ⟨by decide,
   (bounded_scan_heuristic asciiLib [ascii "cat", ascii "car", ascii "care", ascii "dog"]
      (ascii "ca")).1 (by decide)⟩

/-- C7: suppression after a degenerate result is sound.  If a query for a
non-empty text `c` is scanned and collects at most one match, the closure
returns nothing and sets `end` with `cur = c`; from then on every query whose
lower-case text starts with lower-case `c` returns the empty list and leaves
that state in place, however many follow; and when the index is sorted by
lower-case form, the scan of such a text collects at most one match, so the
suppressed answer is the answer the closure gives with `end` unset. -/
theorem suppression_sound (lib : GoLib) (words : List Str) (st : AutoState) (c : Str)
    (hc : c.length ≠ 0)
    (hs : (st.endFlag && HasPrefix (ToLower lib c) (ToLower lib st.cur)) = false)
    (h1 : (collect lib words c).length ≤ 1) :
    autocomplete lib words st c = ([], { cur := c, endFlag := true }) ∧
    (∀ t : Str, HasPrefix (ToLower lib t) (ToLower lib c) = true →
      autocomplete lib words { cur := c, endFlag := true } t
        = ([], { cur := c, endFlag := true })) ∧
    (∀ ts : List Str, (∀ t ∈ ts, HasPrefix (ToLower lib t) (ToLower lib c) = true) →
      ∀ r ∈ autocompleteAll lib words { cur := c, endFlag := true } ts, r = []) ∧
    (words.Pairwise (fun a b => lowerLess lib b a = false) →
      ∀ t : Str, HasPrefix (ToLower lib t) (ToLower lib c) = true →
        (collect lib words t).length ≤ 1 ∧
        ∀ cur : Str, (autocomplete lib words { cur := c, endFlag := true } t).1
          = (autocomplete lib words { cur := cur, endFlag := false } t).1) := by
  have hstep : ∀ t : Str, HasPrefix (ToLower lib t) (ToLower lib c) = true →
      autocomplete lib words { cur := c, endFlag := true } t
        = ([], { cur := c, endFlag := true }) := by
    intro t ht
    unfold autocomplete
    by_cases h0 : t.length = 0
    · rw [if_pos h0]
    · rw [if_neg h0]
      simp [ht]
  refine ⟨?_, hstep, ?_, ?_⟩
  · unfold autocomplete
    rw [if_neg hc, hs]
    simp only [Bool.false_eq_true, if_false]
    rw [if_pos h1]
  · intro ts
    induction ts with
    | nil => intro _ r hr; simp [autocompleteAll] at hr
    | cons t ts ih =>
      intro hts r hr
      simp only [autocompleteAll, hstep t (hts t (List.mem_cons_self _ _)),
        List.mem_cons] at hr
      rcases hr with rfl | hr
      · rfl
      · exact ih (fun x hx => hts x (List.mem_cons_of_mem _ hx)) r hr
  · intro hsorted t ht
    have hfc : (words.filter (isMatch lib c)).length ≤ 1 := by
      have h := h1
      rw [collect_sorted lib words c hsorted, List.length_take] at h
      omega
    have hft : (collect lib words t).length ≤ 1 :=
      le_trans (collect_length_le_filter lib words t)
        (le_trans (filter_isMatch_length_le lib words c t ht) hfc)
    refine ⟨hft, fun cur => ?_⟩
    rw [hstep t ht]
    unfold autocomplete
    by_cases h0 : t.length = 0
    · rw [if_pos h0]
    · rw [if_neg h0]
      simp [hft]

/-- C7 at the sorted index `car`, `dog`, `door` with the queries `ca` and `cab`. -/
theorem suppression_sound_witness :
    (ascii "ca").length ≠ 0 ∧
    (collect asciiLib [ascii "car", ascii "dog", ascii "door"] (ascii "ca")).length ≤ 1 ∧
    autocomplete asciiLib [ascii "car", ascii "dog", ascii "door"]
        { cur := [], endFlag := false } (ascii "ca")
      = ([], { cur := ascii "ca", endFlag := true }) ∧
    (autocomplete asciiLib [ascii "car", ascii "dog", ascii "door"]
        { cur := ascii "ca", endFlag := true } (ascii "cab")).1
      = (autocomplete asciiLib [ascii "car", ascii "dog", ascii "door"]
        { cur := [], endFlag := false } (ascii "cab")).1 :=
  have h := suppression_sound asciiLib [ascii "car", ascii "dog", ascii "door"]
    { cur := [], endFlag := false } (ascii "ca") (by decide) (by decide) (by decide)
  ⟨by decide, by decide, h.1, (h.2.2.2 (by decide) (ascii "cab") (by decide)).2 []⟩

/-! ## Sorting -/

theorem insertSorted_perm {α : Type} (less : α → α → Bool) (x : α) :
    ∀ l : List α, (insertSorted less x l).Perm (x :: l)
  | [] => List.Perm.refl _
  | y :: ys => by
    unfold insertSorted
    split
    · exact List.Perm.refl _
    · exact ((insertSorted_perm less x ys).cons y).trans (List.Perm.swap x y ys)

theorem foldl_insertSorted_perm {α : Type} (less : α → α → Bool) :
    ∀ (xs acc : List α),
      (xs.foldl (fun sorted x => insertSorted less x sorted) acc).Perm (acc ++ xs)
  | [], acc => by simp
  | x :: xs, acc => by
    simp only [List.foldl_cons]
    refine (foldl_insertSorted_perm less xs _).trans ?_
    refine ((insertSorted_perm less x acc).append_right xs).trans ?_
    simpa using (@List.perm_middle _ x acc xs).symm

theorem sortSlice_perm {α : Type} (less : α → α → Bool) (xs : List α) :
    (sortSlice less xs).Perm xs := by
  simpa [sortSlice] using foldl_insertSorted_perm less xs []

theorem insertSorted_pairwise {α : Type} (less : α → α → Bool)
    (hasym : ∀ a b, less a b = true → less b a = false)
    (htrans : ∀ a b c, less b a = false → less c b = false → less c a = false) (x : α) :
    ∀ l : List α, l.Pairwise (fun a b => less b a = false) →
      (insertSorted less x l).Pairwise (fun a b => less b a = false)
  | [], _ => by simp [insertSorted]
  | y :: ys, h => by
    have h' := List.pairwise_cons.mp h
    unfold insertSorted
    by_cases hxy : less x y = true
    · rw [if_pos hxy]
      refine List.pairwise_cons.mpr ⟨?_, h⟩
      intro z hz
      rcases List.mem_cons.mp hz with rfl | hz
      · exact hasym _ _ hxy
      · exact htrans _ _ _ (hasym _ _ hxy) (h'.1 z hz)
    · rw [if_neg hxy]
      refine List.pairwise_cons.mpr ⟨?_, insertSorted_pairwise less hasym htrans x ys h'.2⟩
      intro z hz
      rcases List.mem_cons.mp ((insertSorted_perm less x ys).subset hz) with rfl | hz
      · simpa using hxy
      · exact h'.1 z hz

theorem foldl_insertSorted_pairwise {α : Type} (less : α → α → Bool)
    (hasym : ∀ a b, less a b = true → less b a = false)
    (htrans : ∀ a b c, less b a = false → less c b = false → less c a = false) :
    ∀ (xs acc : List α), acc.Pairwise (fun a b => less b a = false) →
      (xs.foldl (fun sorted x => insertSorted less x sorted) acc).Pairwise
        (fun a b => less b a = false)
  | [], _, h => h
  | x :: xs, acc, h => by
    simp only [List.foldl_cons]
    exact foldl_insertSorted_pairwise less hasym htrans xs _
      (insertSorted_pairwise less hasym htrans x acc h)

/-- The insertion sort returns what `sort.Slice` guarantees. -/
theorem sortSlice_sortedBy {α : Type} (less : α → α → Bool)
    (hasym : ∀ a b, less a b = true → less b a = false)
    (htrans : ∀ a b c, less b a = false → less c b = false → less c a = false)
    (xs : List α) : SortedBy less xs (sortSlice less xs) :=
  ⟨sortSlice_perm less xs,
   foldl_insertSorted_pairwise less hasym htrans xs [] List.Pairwise.nil⟩

/-- Two sorted arrangements of the same elements agree when no two different
elements tie. -/
theorem eq_of_perm_of_pairwise {α : Type} (r : α → α → Prop) :
    ∀ (l₁ l₂ : List α), (∀ a ∈ l₁, ∀ b ∈ l₁, r a b → r b a → a = b) → l₁.Perm l₂ →
      l₁.Pairwise r → l₂.Pairwise r → l₁ = l₂
  | [], l₂, _, hp, _, _ => (List.Perm.nil_eq hp)
  | a :: t₁, [], _, hp, _, _ => absurd hp.symm.nil_eq (by simp)
  | a :: t₁, b :: t₂, hanti, hp, h₁, h₂ => by
    have h₁' := List.pairwise_cons.mp h₁
    have h₂' := List.pairwise_cons.mp h₂
    have hab : a = b := by
      have ha : a ∈ b :: t₂ := hp.subset (List.mem_cons_self _ _)
      have hb : b ∈ a :: t₁ := hp.symm.subset (List.mem_cons_self _ _)
      rcases List.mem_cons.mp ha with e | ha
      · exact e
      · rcases List.mem_cons.mp hb with e | hb'
        · exact e.symm
        · exact hanti a (List.mem_cons_self _ _) b hb (h₁'.1 b hb') (h₂'.1 a ha)
    subst hab
    rw [eq_of_perm_of_pairwise r t₁ t₂
      (fun x hx y hy => hanti x (List.mem_cons_of_mem _ hx) y (List.mem_cons_of_mem _ hy))
      (List.Perm.cons_inv hp) h₁'.2 h₂'.2]

theorem lowerLess_asymm (lib : GoLib) (a b : Str) (h : lowerLess lib a b = true) :
    lowerLess lib b a = false := strLess_asymm _ _ h

theorem lowerLess_trans_not (lib : GoLib) (a b c : Str) (h1 : lowerLess lib b a = false)
    (h2 : lowerLess lib c b = false) : lowerLess lib c a = false :=
  strLess_trans_not _ _ _ h1 h2

theorem ReadDir_perm (l₁ l₂ : List Str) (h : l₁.Perm l₂) : ReadDir l₁ = ReadDir l₂ := by
  have s₁ := sortSlice_sortedBy strLess strLess_asymm strLess_trans_not l₁
  have s₂ := sortSlice_sortedBy strLess strLess_asymm strLess_trans_not l₂
  exact eq_of_perm_of_pairwise _ _ _ (fun a _ b _ hab hba => strLess_antisymm a b hba hab)
    ((s₁.1.trans h).trans s₂.1.symm) s₁.2 s₂.2

/-! ## Claims on the fingerprint and the word cache -/

/-- C8: fingerprint stability.  The fingerprint `hashCurrent` that `CheckHash`
computes for a dictionary directory, and with it the result of `CheckHash`, is
the same for every order in which the file system lists the same names: the
names reach the digest loop through `ioutil.ReadDir`, which sorts them. -/
theorem fingerprint_stable (md5 : Str → Str) (listing₁ listing₂ : List Str)
    (h : listing₁.Perm listing₂) :
    hashCurrent md5 listing₁ = hashCurrent md5 listing₂ ∧
    ∀ stored : Option Str, CheckHash md5 stored listing₁ = CheckHash md5 stored listing₂ := by
  have e : hashCurrent md5 listing₁ = hashCurrent md5 listing₂ := by
    unfold hashCurrent
    rw [ReadDir_perm _ _ h]
  refine ⟨e, fun stored => ?_⟩
  cases stored with
  | none => simp [CheckHash, e]
  | some hash => simp [CheckHash, e]

/-- C8 at the listings `b.ifo, readme, a.ifo` and `a.ifo, b.ifo, readme`, with
the reversal of a name standing in for its digest. -/
theorem fingerprint_stable_witness :
    [ascii "b.ifo", ascii "readme", ascii "a.ifo"].Perm
      [ascii "a.ifo", ascii "b.ifo", ascii "readme"] ∧
    hashCurrent List.reverse [ascii "b.ifo", ascii "readme", ascii "a.ifo"]
      = hashCurrent List.reverse [ascii "a.ifo", ascii "b.ifo", ascii "readme"] :=
  ⟨by decide,
   (fingerprint_stable List.reverse [ascii "b.ifo", ascii "readme", ascii "a.ifo"]
      [ascii "a.ifo", ascii "b.ifo", ascii "readme"] (by decide)).1⟩

/-- C9 as stated fails: the merged map holding the two headwords `apple` and
`Apple` can be enumerated in either order, and the two runs write different
contents, `apple\nApple\n` and `Apple\napple\n`. -/
theorem CacheWords_depends_on_map_order :
    [ascii "apple", ascii "Apple"].Perm [ascii "Apple", ascii "apple"] ∧
    CacheWords asciiLib [ascii "apple", ascii "Apple"] = ascii "apple\nApple\n" ∧
    CacheWords asciiLib [ascii "Apple", ascii "apple"] = ascii "Apple\napple\n" ∧
    CacheWords asciiLib [ascii "apple", ascii "Apple"]
      ≠ CacheWords asciiLib [ascii "Apple", ascii "apple"] := by
  decide

/-- C9 (amended): for two enumerations `keys₁`, `keys₂` of the same merged word
map, `CacheWords` writes in both runs the same words, sorted by lower-case
form; and when no two different headwords have the same lower-case form, the
two runs write byte-identical contents, also for every other sorted result
`sort.Slice` may return. -/
theorem CacheWords_deterministic (lib : GoLib) (keys₁ keys₂ : List Str)
    (hperm : keys₁.Perm keys₂) :
    SortedBy (lowerLess lib) keys₁ (sortSlice (lowerLess lib) keys₁) ∧
    (sortSlice (lowerLess lib) keys₁).Perm (sortSlice (lowerLess lib) keys₂) ∧
    ((∀ a ∈ keys₁, ∀ b ∈ keys₁, ToLower lib a = ToLower lib b → a = b) →
      CacheWords lib keys₁ = CacheWords lib keys₂ ∧
      ∀ out₁ out₂ : List Str, SortedBy (lowerLess lib) keys₁ out₁ →
        SortedBy (lowerLess lib) keys₂ out₂ → writeLines out₁ = writeLines out₂) := by
  have s₁ := sortSlice_sortedBy (lowerLess lib) (lowerLess_asymm lib) (lowerLess_trans_not lib) keys₁
  have s₂ := sortSlice_sortedBy (lowerLess lib) (lowerLess_asymm lib) (lowerLess_trans_not lib) keys₂
  refine ⟨s₁, (s₁.1.trans hperm).trans s₂.1.symm, fun hinj => ?_⟩
  have key : ∀ out₁ out₂ : List Str, SortedBy (lowerLess lib) keys₁ out₁ →
      SortedBy (lowerLess lib) keys₂ out₂ → out₁ = out₂ := by
    intro out₁ out₂ h₁ h₂
    refine eq_of_perm_of_pairwise _ _ _ ?_ ((h₁.1.trans hperm).trans h₂.1.symm) h₁.2 h₂.2
    intro a ha b hb hab hba
    exact hinj a (h₁.1.subset ha) b (h₁.1.subset hb) (strLess_antisymm _ _ hba hab)
  refine ⟨?_, fun out₁ out₂ h₁ h₂ => by rw [key out₁ out₂ h₁ h₂]⟩
  unfold CacheWords
  rw [key _ _ s₁ s₂]

/-- C9 (amended) at the enumerations `banana, apple` and `apple, banana`. -/
theorem CacheWords_deterministic_witness :
    [ascii "banana", ascii "apple"].Perm [ascii "apple", ascii "banana"] ∧
    CacheWords asciiLib [ascii "banana", ascii "apple"]
      = CacheWords asciiLib [ascii "apple", ascii "banana"] :=
  ⟨by decide,
   ((CacheWords_deterministic asciiLib [ascii "banana", ascii "apple"]
      [ascii "apple", ascii "banana"] (by decide)).2.2 (by decide)).1⟩

/-! ## The annotation loops, line by line -/

theorem getD_at_length (pre : List Str) (t : Str) (suf : List Str) :
    (pre ++ t :: suf).getD pre.length [] = t := by
  induction pre with
  | nil => rfl
  | cons a pre ih => simpa using ih

theorem snoc_append (pre : List Str) (t : Str) (suf : List Str) :
    (pre ++ [t]) ++ suf = pre ++ t :: suf := by
  simp

theorem marksBefore_at_length (pre suf : List Str) :
    marksBefore (pre ++ suf) pre.length = (pre.filter isMarker).length := by
  simp [marksBefore]

theorem opensSection_at_length (pre : List Str) (t : Str) (suf : List Str) :
    opensSection (pre ++ t :: suf) pre.length
      = (isMarker t && (pre.filter isMarker).length % 2 == 0) := by
  simp only [opensSection, getD_at_length, marksBefore_at_length]

theorem sdcvLoop_eq : ∀ (suf pre : List Str) (res : Str) (found : List Str),
    sdcvLoop suf (pre.filter isMarker).length (((pre.filter isMarker).length + 1) / 2) res found
      = (res ++ (List.range' pre.length suf.length).flatMap (sectionLine (pre ++ suf)),
         found ++ ((List.range' pre.length suf.length).filter (opensSection (pre ++ suf))).map
           (sectionName (pre ++ suf)))
  | [], pre, res, found => by simp [sdcvLoop]
  | t :: suf, pre, res, found => by
    have ih := sdcvLoop_eq suf (pre ++ [t])
    rw [snoc_append] at ih
    simp only [List.length_append, List.length_singleton, List.filter_append] at ih
    have hline : sectionLine (pre ++ t :: suf) pre.length
        = if (isMarker t && (pre.filter isMarker).length % 2 == 0) then
            replaceFirst old (sectionTag ((pre.filter isMarker).length / 2)) t ++ [10]
          else t ++ [10] := by
      simp only [sectionLine, opensSection_at_length, sectionLabel, marksBefore_at_length,
        getD_at_length]
    have hname : sectionName (pre ++ t :: suf) pre.length = RepReplace 0 (t.drop 3) := by
      simp only [sectionName, getD_at_length]
    simp only [List.length_cons, List.range'_succ, List.flatMap_cons, List.filter_cons,
      opensSection_at_length, hline, hname]
    unfold sdcvLoop
    by_cases hm : isMarker t = true
    · have hc : Contains t old = true := hm
      have hf : ([t].filter isMarker).length = 1 := by simp [hm]
      rw [hf] at ih
      by_cases he : (pre.filter isMarker).length % 2 = 0
      · have hj : ((pre.filter isMarker).length + 1) / 2 + 1
            = ((pre.filter isMarker).length + 1 + 1) / 2 := by omega
        have hl : ((pre.filter isMarker).length + 1) / 2 = (pre.filter isMarker).length / 2 := by
          omega
        simp only [hc, hm, he, Bool.true_and, beq_self_eq_true, if_true, hj, ih, List.map_cons]
        rw [hl]
        simp [List.append_assoc, hname]
      · have hj : ((pre.filter isMarker).length + 1) / 2
            = ((pre.filter isMarker).length + 1 + 1) / 2 := by omega
        have he' : ((pre.filter isMarker).length % 2 == 0) = false := by simpa using he
        simp only [hc, hm, he', Bool.and_false, Bool.false_eq_true, if_false, if_true]
        rw [hj, ih]
        simp [List.append_assoc]
    · have hm' : isMarker t = false := by simpa using hm
      have hc : Contains t old = false := hm'
      have hf : ([t].filter isMarker).length = 0 := by simp [hm']
      rw [hf] at ih
      simp only [Nat.add_zero] at ih
      simp only [hc, hm', Bool.false_and, Bool.false_eq_true, if_false]
      rw [ih]
      simp [List.append_assoc]

theorem sectionLabels_eq : ∀ (suf pre : List Str),
    ((List.range' pre.length suf.length).filter (opensSection (pre ++ suf))).map
        (sectionLabel (pre ++ suf))
      = List.range' (((pre.filter isMarker).length + 1) / 2)
          ((List.range' pre.length suf.length).filter (opensSection (pre ++ suf))).length
  | [], pre => by simp
  | t :: suf, pre => by
    have ih := sectionLabels_eq suf (pre ++ [t])
    rw [snoc_append] at ih
    simp only [List.length_append, List.length_singleton, List.filter_append] at ih
    have hlabel : sectionLabel (pre ++ t :: suf) pre.length
        = (pre.filter isMarker).length / 2 := by
      simp only [sectionLabel, marksBefore_at_length]
    simp only [List.length_cons, List.range'_succ, List.filter_cons, opensSection_at_length]
    by_cases hm : isMarker t = true
    · have hf : ([t].filter isMarker).length = 1 := by simp [hm]
      rw [hf] at ih
      by_cases he : (pre.filter isMarker).length % 2 = 0
      · have hj : ((pre.filter isMarker).length + 1 + 1) / 2
            = ((pre.filter isMarker).length + 1) / 2 + 1 := by omega
        have hl : (pre.filter isMarker).length / 2 = ((pre.filter isMarker).length + 1) / 2 := by
          omega
        simp only [hm, he, Bool.true_and, beq_self_eq_true, if_true, List.map_cons,
          List.length_cons, List.range'_succ, hlabel, ih, hj, hl]
      · have hj : ((pre.filter isMarker).length + 1 + 1) / 2
            = ((pre.filter isMarker).length + 1) / 2 := by omega
        have he' : ((pre.filter isMarker).length % 2 == 0) = false := by simpa using he
        simp only [hm, he', Bool.and_false, Bool.false_eq_true, if_false, ih, hj]
    · have hm' : isMarker t = false := by simpa using hm
      have hf : ([t].filter isMarker).length = 0 := by simp [hm']
      rw [hf] at ih
      simp only [Nat.add_zero] at ih
      simp only [hm', Bool.false_and, Bool.false_eq_true, if_false, ih]

/-! ## Claims on the dictionary sections -/

/-- C6: dictionary-section annotation in `GetSdcv`.  With `lines` the lines of
the lookup output: (1) the annotated text is, line by line, `sectionLine`: a
line that holds the marker `-->` and has an even number of marker lines before
it (the 1st, 3rd, 5th, ... marker line) has its marker wrapped in a region tag,
every other line is copied unchanged; (2) `FoundDict` ends with one entry for
each of these section lines, in text order, taken from that line (`t[3:]`
through `Rep`); (3) the labels of the section lines, in text order, are
`0, 1, ..., N-1` for `N = len(FoundDict)`, so that entry `k` of `FoundDict` comes
from the line labelled `k`; (4) picking entry `k` of the dictionary dropdown
highlights the region id `k`. -/
theorem GetSdcv_sections (out : Str) :
    (GetSdcv out).1
      = (List.range (scanLines out).length).flatMap (sectionLine (scanLines out)) ∧
    (GetSdcv out).2
      = ((List.range (scanLines out).length).filter (opensSection (scanLines out))).map
          (sectionName (scanLines out)) ∧
    ((List.range (scanLines out).length).filter (opensSection (scanLines out))).map
        (sectionLabel (scanLines out))
      = List.range (GetSdcv out).2.length ∧
    ∀ k : Nat, k < (GetSdcv out).2.length → dropdownHighlight (k : Int) = some (k : Int) := by
  have h := sdcvLoop_eq (scanLines out) [] [] []
  have hl := sectionLabels_eq (scanLines out) []
  simp only [List.filter_nil, List.length_nil, List.nil_append, Nat.zero_add, Nat.reduceDiv,
    ← List.range_eq_range'] at h hl
  have h2 : (GetSdcv out).2
      = ((List.range (scanLines out).length).filter (opensSection (scanLines out))).map
          (sectionName (scanLines out)) := by
    unfold GetSdcv
    rw [h]
  refine ⟨?_, h2, ?_, ?_⟩
  · unfold GetSdcv
    rw [h]
  · rw [hl, h2, List.length_map, List.range_eq_range']
  · intro k _
    have hk : ¬ ((k : Int) = -1) := by omega
    simp [dropdownHighlight, hk]

/-- C6 on the output `-->d1`, `-->w`, `t`, `-->d2`, `-->w`: lines 1 and 4 open the
sections 0 and 1. -/
theorem GetSdcv_sections_witness :
    GetSdcv (ascii "-->d1\n-->w\nt\n-->d2\n-->w")
      = (ascii ("[#06989A:][\"0\"]-->[\"\"][-:-]d1\n-->w\nt\n"
          ++ "[#06989A:][\"1\"]-->[\"\"][-:-]d2\n-->w\n"),
         [ascii "d1", ascii "d2"]) ∧
    (GetSdcv (ascii "-->d1\n-->w\nt\n-->d2\n-->w")).2
      = ((List.range (scanLines (ascii "-->d1\n-->w\nt\n-->d2\n-->w")).length).filter
          (opensSection (scanLines (ascii "-->d1\n-->w\nt\n-->d2\n-->w")))).map
          (sectionName (scanLines (ascii "-->d1\n-->w\nt\n-->d2\n-->w"))) :=
  ⟨by decide, (GetSdcv_sections (ascii "-->d1\n-->w\nt\n-->d2\n-->w")).2.1⟩

theorem hitsBefore_at_length (lib : GoLib) (s : Str) (pre suf : List Str) :
    hitsBefore lib s (pre ++ suf) pre.length
      = (pre.filter (fun t => Contains (ToLower lib t) s)).length := by
  simp [hitsBefore]

theorem isHit_at_length (lib : GoLib) (s : Str) (pre : List Str) (t : Str) (suf : List Str) :
    isHit lib s (pre ++ t :: suf) pre.length = Contains (ToLower lib t) s := by
  simp only [isHit, getD_at_length]

/-- The loop of `SearchText` on lines that contain `s` exactly when their
lower-case form does. -/
theorem searchLoop_eq (lib : GoLib) (s : Str) (n : Nat) : ∀ (suf pre : List Str) (res : Str),
    (∀ t ∈ pre ++ suf, Contains t s = Contains (ToLower lib t) s) →
    searchLoop lib s suf (n + (pre.filter (fun t => Contains (ToLower lib t) s)).length) res
      = (res ++ (List.range' pre.length suf.length).flatMap
          (searchLine lib s n (pre ++ suf)),
         n + ((pre ++ suf).filter (fun t => Contains (ToLower lib t) s)).length)
  | [], pre, res, _ => by simp [searchLoop]
  | t :: suf, pre, res, hcase => by
    have ht : Contains (ToLower lib t) s = Contains t s := (hcase t (by simp)).symm
    have ih := searchLoop_eq lib s n suf (pre ++ [t])
    rw [snoc_append] at ih
    simp only [List.length_append, List.length_singleton, List.filter_append] at ih
    have hline : searchLine lib s n (pre ++ t :: suf) pre.length
        = if Contains t s then
            ReplaceAll lib t s
              (searchTag (n + (pre.filter (fun t => Contains (ToLower lib t) s)).length) s)
              ++ [10]
          else t ++ [10] := by
      simp only [searchLine, isHit_at_length, hitsBefore_at_length, getD_at_length, ht]
    simp only [List.length_cons, List.range'_succ, List.flatMap_cons, hline]
    unfold searchLoop
    by_cases hc : Contains t s = true
    · have hf : ([t].filter (fun t => Contains (ToLower lib t) s)).length = 1 := by
        simp [hc, ht]
      rw [hf] at ih
      simp only [hc, if_true]
      rw [← Nat.add_assoc] at ih
      rw [ih _ hcase]
      simp [List.append_assoc, hc, ht]
    · have hc' : Contains t s = false := by simpa using hc
      have hf : ([t].filter (fun t => Contains (ToLower lib t) s)).length = 0 := by
        simp [hc', ht]
      rw [hf] at ih
      simp only [Nat.add_zero] at ih
      simp only [hc', Bool.false_eq_true, if_false]
      rw [ih _ hcase]
      simp [List.append_assoc, hc', ht]

theorem searchLabels_eq (lib : GoLib) (s : Str) (n : Nat) : ∀ (suf pre : List Str),
    ((List.range' pre.length suf.length).filter (isHit lib s (pre ++ suf))).map
        (fun k => n + hitsBefore lib s (pre ++ suf) k)
      = List.range' (n + (pre.filter (fun t => Contains (ToLower lib t) s)).length)
          (suf.filter (fun t => Contains (ToLower lib t) s)).length
  | [], pre => by simp
  | t :: suf, pre => by
    have ih := searchLabels_eq lib s n suf (pre ++ [t])
    rw [snoc_append] at ih
    simp only [List.length_append, List.length_singleton, List.filter_append] at ih
    simp only [List.length_cons, List.range'_succ, List.filter_cons, isHit_at_length]
    by_cases hc : Contains (ToLower lib t) s = true
    · have hf : ([t].filter (fun t => Contains (ToLower lib t) s)).length = 1 := by simp [hc]
      rw [hf, ← Nat.add_assoc] at ih
      simp only [hc, if_true, List.map_cons, List.length_cons, List.range'_succ,
        hitsBefore_at_length, ih]
    · have hc' : Contains (ToLower lib t) s = false := by simpa using hc
      have hf : ([t].filter (fun t => Contains (ToLower lib t) s)).length = 0 := by
        simp [hc']
      rw [hf] at ih
      simp only [Nat.add_zero] at ih
      simp only [hc', Bool.false_eq_true, if_false, ih]

/-! ## Claims on the text search -/

/-- C3, the code at the failing input: for the text `alpha`, `beta`,
`ALPHA line`, `gamma` and the query `alpha`, with no existing regions, only
line 1 is wrapped in a region (label 0); the line `ALPHA line`, whose
lower-case form contains the lower-case query, is copied unchanged. -/
theorem SearchText_skips_upper_case_line :
    (SearchText asciiLib
        { FoundDict := [], txt := ascii "alpha\nbeta\nALPHA line\ngamma", highlighted := none }
        (ascii "alpha\nbeta\nALPHA line\ngamma") (ascii "alpha")).1.txt
      = ascii "[#FCE94F:#FF5FFF][\"0\"]alpha[\"\"][-:-]\nbeta\nALPHA line\ngamma\n" ∧
    Contains (ToLower asciiLib (ascii "ALPHA line")) (ToLower asciiLib (ascii "alpha")) = true := by
  decide

/-- C4, the code at the failing input: on the text of four lines `a`, with no
dictionary regions, the search for `a` makes the regions 0, 1, 2, 3 and
highlights region 0; the first "next" highlights region 1 and the second
"next" highlights region 3, so region 2 is skipped. -/
theorem next_skips_a_region :
    (searchKey asciiLib
        (openSearch { FoundDict := [], txt := ascii "a\na\na\na", highlighted := none })
        (SearchKey.enter (ascii "a"))).view.txt
      = ascii ("[#FCE94F:#FF5FFF][\"0\"]a[\"\"][-:-]\n[#FCE94F:#FF5FFF][\"1\"]a[\"\"][-:-]\n"
          ++ "[#FCE94F:#FF5FFF][\"2\"]a[\"\"][-:-]\n[#FCE94F:#FF5FFF][\"3\"]a[\"\"][-:-]\n") ∧
    highlightTrace asciiLib
        (openSearch { FoundDict := [], txt := ascii "a\na\na\na", highlighted := none })
        [SearchKey.enter (ascii "a"), SearchKey.next, SearchKey.next]
      = [some 0, some 1, some 3] := by
  decide

/-- C5 as stated fails: the line `ab ab` holds two occurrences of the query `ab`;
with no existing regions both are wrapped in a region tag with the same label
0, not with the labels 0 and 1. -/
theorem SearchText_one_label_per_line :
    searchResult asciiLib 0 (ascii "ab ab") (ascii "ab")
      = ascii "[#FCE94F:#FF5FFF][\"0\"]ab[\"\"][-:-] [#FCE94F:#FF5FFF][\"0\"]ab[\"\"][-:-]\n" ∧
    searchResult asciiLib 0 (ascii "ab ab") (ascii "ab")
      ≠ ascii "[#FCE94F:#FF5FFF][\"0\"]ab[\"\"][-:-] [#FCE94F:#FF5FFF][\"1\"]ab[\"\"][-:-]\n" := by
  decide

/-- C5 (amended): in search mode every line that contains the query gets a
region label of its own.  Let `s` be the lower-cased query, `n = len(FoundDict)`
and `lines` the lines of the text, and let each line contain `s` exactly when
its lower-case form does (the lines on which matching does not depend on
case).  Then (1) the text produced by `SearchText` is, line by line,
`searchLine`: in a line containing `s` every occurrence of `s` is replaced by
the region tag carrying that line's label, every other line is copied; (2) the
labels of the lines containing `s`, in reading order, are pairwise distinct and
are `n, n+1, ..., n+M-1` for the `M` such lines; (3) `SearchText` returns `n`,
highlights region `n` and leaves `FoundDict` as it is. -/
theorem SearchText_line_labels (lib : GoLib) (v : View) (text req : Str)
    (hcase : ∀ t ∈ scanLines text,
      Contains t (ToLower lib req) = Contains (ToLower lib t) (ToLower lib req)) :
    (SearchText lib v text req).1.txt
      = (List.range (scanLines text).length).flatMap
          (searchLine lib (ToLower lib req) v.FoundDict.length (scanLines text)) ∧
    ((List.range (scanLines text).length).filter
        (isHit lib (ToLower lib req) (scanLines text))).map
        (fun k => v.FoundDict.length + hitsBefore lib (ToLower lib req) (scanLines text) k)
      = List.range' v.FoundDict.length
          ((scanLines text).filter
            (fun t => Contains (ToLower lib t) (ToLower lib req))).length ∧
    (List.range' v.FoundDict.length
      ((scanLines text).filter
        (fun t => Contains (ToLower lib t) (ToLower lib req))).length).Nodup ∧
    (SearchText lib v text req).2 = (v.FoundDict.length : Int) ∧
    (SearchText lib v text req).1.highlighted = some (v.FoundDict.length : Int) ∧
    (SearchText lib v text req).1.FoundDict = v.FoundDict := by
  have h := searchLoop_eq lib (ToLower lib req) v.FoundDict.length (scanLines text) [] []
    (by simpa using hcase)
  have hl := searchLabels_eq lib (ToLower lib req) v.FoundDict.length (scanLines text) []
  simp only [List.filter_nil, List.length_nil, List.nil_append, Nat.add_zero,
    ← List.range_eq_range'] at h hl
  refine ⟨?_, hl, List.nodup_range' _ _, rfl, rfl, rfl⟩
  simp only [SearchText, HighlightText, searchResult]
  rw [h]

set_option maxRecDepth 100000 in
/-- C5 (amended) on a text with two dictionary regions (`FoundDict` holds `d1`
and `d2`) and the query `d`: the three lines containing `d` get the labels 2, 3
and 4, and the two occurrences in the line `d d` both carry label 3. -/
theorem SearchText_line_labels_witness :
    (GetSdcv (ascii "-->d1\n-->w\nd d\n-->d2\n-->w")).1 = twoSections ∧
    (∀ t ∈ scanLines twoSections,
      Contains t (ToLower asciiLib (ascii "d"))
        = Contains (ToLower asciiLib t) (ToLower asciiLib (ascii "d"))) ∧
    (SearchText asciiLib
        { FoundDict := [ascii "d1", ascii "d2"], txt := twoSections, highlighted := none }
        twoSections (ascii "d")).1.txt
      = ascii ("[#06989A:][\"0\"]-->[\"\"][-:-][#FCE94F:#FF5FFF][\"2\"]d[\"\"][-:-]1\n-->w\n"
          ++ "[#FCE94F:#FF5FFF][\"3\"]d[\"\"][-:-] [#FCE94F:#FF5FFF][\"3\"]d[\"\"][-:-]\n"
          ++ "[#06989A:][\"1\"]-->[\"\"][-:-][#FCE94F:#FF5FFF][\"4\"]d[\"\"][-:-]2\n-->w\n") ∧
    (SearchText asciiLib
        { FoundDict := [ascii "d1", ascii "d2"], txt := twoSections, highlighted := none }
        twoSections (ascii "d")).1.txt
      = (List.range (scanLines twoSections).length).flatMap
          (searchLine asciiLib (ToLower asciiLib (ascii "d")) 2 (scanLines twoSections)) ∧
    ((List.range (scanLines twoSections).length).filter
        (isHit asciiLib (ToLower asciiLib (ascii "d")) (scanLines twoSections))).map
        (fun k => 2 + hitsBefore asciiLib (ToLower asciiLib (ascii "d"))
          (scanLines twoSections) k)
      = [2, 3, 4] :=
  have h := SearchText_line_labels asciiLib
    { FoundDict := [ascii "d1", ascii "d2"], txt := twoSections, highlighted := none }
    twoSections (ascii "d") (by decide)
  ⟨by decide, by decide, by decide, h.1, by decide⟩

/-! ## Claim on the history -/

/-- C10, the code at the failing input: with `HistorySize = 2` and an empty
history, the look-ups `a`, `b`, `b`, `c`, `d` leave three entries in the history
map, more than `HistorySize`. -/
theorem history_exceeds_HistorySize :
    lookups 2 [] [ascii "a", ascii "b", ascii "b", ascii "c", ascii "d"]
      = [(ascii "b", 0), (ascii "c", 0), (ascii "d", 1)] ∧
    (2 : Int) < ((lookups 2 [] [ascii "a", ascii "b", ascii "b", ascii "c", ascii "d"]).length
      : Int) := by
  decide

end Tuidict
